import Mathlib

/-!
Verification of the Coq Sphinx domain (`doc/tools/coqrst/coqdomain.py`).

The development shallowly embeds the documentation-object registry and
cross-reference subsystem of the Coq domain: target identifier creation
(`make_target`), per-subdomain object tables (`CoqObject._record_name`,
`CoqObject._add_target`, `CoqObject._add_index_entry`,
`CoqObject._prepare_names`, `CoqObject.handle_signature`), the grammar
production special case (`ProductionObject`), the subdomain indices
(`CoqSubdomainsIndex.generate`), and the domain-level operations
(`CoqDomain.merge_domaindata`, `CoqDomain.resolve_xref`,
`CoqDomain.clear_doc`).

Python dictionaries are modelled as insertion-ordered association lists
with unique keys: assignment to an existing key updates the value in
place (keeping the key position), assignment to a fresh key appends.
-/

/-- Lookup in an insertion-ordered association list (Python `d.get(k)` /
`k in d`). -/
def dictGet {α β : Type} [DecidableEq α] : List (α × β) → α → Option β
  | [], _ => none
  | (k, v) :: rest, key => if k = key then some v else dictGet rest key

/-- Assignment `d[k] = v` in a Python dictionary: an existing key keeps its
position and gets the new value, a fresh key is appended at the end. -/
def dictSet {α β : Type} [DecidableEq α] : List (α × β) → α → β → List (α × β)
  | [], key, v => [(key, v)]
  | (k, w) :: rest, key, v =>
    if k = key then (key, v) :: rest else (k, w) :: dictSet rest key v

/-- Lookup with a default value. -/
def dictGetD {α β : Type} [DecidableEq α] (d : List (α × β)) (key : α) (dfl : β) : β :=
  (dictGet d key).getD dfl

/-- Registry values: `(docname, objtype, targetid)` as stored in
`env.domaindata['coq']['objects'][subdomain][name]`. -/
structure RegEntry where
  docname : String
  objtype : String
  targetid : String
deriving DecidableEq, Repr

/-- One subdomain's table: name to registered entry. -/
abbrev Objects := List (String × RegEntry)

/-- The whole `'objects'` table: subdomain to per-subdomain table. -/
abbrev Registry := List (String × Objects)

/-- Lookup of a name inside one subdomain of a registry. -/
def registryGet (reg : Registry) (subdomain name : String) : Option RegEntry :=
  dictGet (dictGetD reg subdomain []) name

/-- Python source, `make_target`: formats the target as
`coq:` then the object type, a period, and the target id. -/
def make_target (objtype targetid : String) : String :=
  "coq:" ++ objtype ++ "." ++ targetid

/-- Keys of `CoqDomain.object_types`: every object type of the domain. -/
def coq_objtype_names : List String :=
  ["cmd", "cmdv", "tacn", "tacv", "opt", "flag", "table", "thm", "prodn",
   "exn", "warn", "index"]

/-- Python `str.isspace` characters used by `str.split()` and `str.strip()`
(ASCII range; the source only ever handles ASCII signatures). -/
def pyIsSpace (c : Char) : Bool :=
  c = ' ' || c = '\t' || c = '\n' || c = '\r' || c = '\x0b' || c = '\x0c'

/-- Python `s.strip()`: remove leading and trailing whitespace. -/
def pyStrip (s : String) : String :=
  ⟨((s.data.dropWhile pyIsSpace).reverse.dropWhile pyIsSpace).reverse⟩

/-- Python `s.endswith(p)`. -/
def pyEndsWith (s p : String) : Bool := p.data.isSuffixOf s.data

/-- Python `s.startswith(p)`. -/
def pyStartsWith (s p : String) : Bool := p.data.isPrefixOf s.data

/-- Python `s.lower()` (ASCII case folding, which is all the domain needs). -/
def pyLower (s : String) : String := ⟨s.data.map Char.toLower⟩

/-- Python `s.split(sep)` for a one-character separator `sep`, on character
lists: `"".split(";") == [""]`, `"a;b".split(";") == ["a", "b"]`. -/
def splitOnChar (sep : Char) : List Char → List (List Char)
  | [] => [[]]
  | c :: rest =>
    if c = sep then [] :: splitOnChar sep rest
    else
      match splitOnChar sep rest with
      | [] => [[c]]
      | w :: ws => (c :: w) :: ws

/-- Python `s.split(maxsplit=n)` with no separator, on character lists:
runs of whitespace separate words, leading/trailing whitespace is dropped,
and after `n` splits the remainder (trailing whitespace included) is kept
verbatim as the last part. -/
def pySplitAux : Nat → List Char → List (List Char)
  | maxsplit, cs =>
    match cs.dropWhile pyIsSpace with
    | [] => []
    | c :: rest =>
      match maxsplit with
      | 0 => [c :: rest]
      | m + 1 =>
        ((c :: rest).takeWhile (fun ch => !pyIsSpace ch)) ::
          pySplitAux m ((c :: rest).dropWhile (fun ch => !pyIsSpace ch))

/-- Python `s.split(maxsplit=n)` on strings. -/
def pySplitStr (maxsplit : Nat) (s : String) : List String :=
  (pySplitAux maxsplit s.data).map (fun cs => ⟨cs⟩)

/-- Python source, `CoqObject._warn_if_duplicate_name`: if `name` is already
present, emit one warning citing the other object.  A warning is modelled as
the pair `(name, docname of the earlier object)`; the source formats the
message through the external `env.doc2path`. -/
def warn_if_duplicate_name (objects : Objects) (name : String) :
    List (String × String) :=
  match dictGet objects name with
  | some other => [(name, other.docname)]
  | none => []

/-- Python source, `CoqObject._record_name`: warn on a duplicate, then map
`name` to `(docname, objtype, target_id)` in the subdomain table
(last write wins).  Total: duplicates warn, they never abort. -/
def record_name (objects : Objects) (name docname objtype target_id : String) :
    Objects × List (String × String) :=
  (dictSet objects name ⟨docname, objtype, target_id⟩,
   warn_if_duplicate_name objects name)

/-- Python source, `CoqObject._target_id`: `make_target(objtype, make_id(name))`.
`nodes.make_id` is the external docutils sanitizer and is kept as a parameter. -/
def target_id (makeId : String → String) (objtype name : String) : String :=
  make_target objtype (makeId name)

/-- Result state of `CoqObject._add_target`: the subdomain table, the current
document's claimed target ids (`state.document.ids`), warnings emitted, and
the returned target id. -/
structure AddTargetResult where
  objects : Objects
  docIds : List String
  warnings : List (String × String)
  targetid : String
deriving DecidableEq, Repr

/-- Python source, `CoqObject._add_target`: if the computed target id is
already claimed in the current document, do nothing (no registration, no
warning) and return it; otherwise claim the id (via the external
`note_explicit_target`) and record the name. -/
def add_target (makeId : String → String) (objtype docname : String)
    (objects : Objects) (docIds : List String) (name : String) : AddTargetResult :=
  let targetid := target_id makeId objtype name
  if docIds.contains targetid then
    { objects := objects, docIds := docIds, warnings := [], targetid := targetid }
  else
    let recorded := record_name objects name docname objtype targetid
    { objects := recorded.1, docIds := docIds ++ [targetid],
      warnings := recorded.2, targetid := targetid }

/-- Python source, `CoqObject._add_index_entry`: names starting with an
underscore get no index entry; otherwise one `('single', text, target)` entry
is produced, where `text` drops one trailing period (unless the name ends in
an ellipsis) and appends the index suffix when the type defines a non-empty
one (Python truthiness). -/
def add_index_entry (indexSuffix : Option String) (name target : String) :
    List (String × String × String) :=
  if pyStartsWith name "_" then []
  else
    let trim := pyEndsWith name "." && !pyEndsWith name "..."
    let index_text := if trim then name.dropRight 1 else name
    let index_text :=
      match indexSuffix with
      | some suf => if suf = "" then index_text else index_text ++ " " ++ suf
      | none => index_text
    [("single", index_text, target)]

/-- Result of `CoqObject.add_target_and_index`. -/
structure ATIResult where
  objects : Objects
  docIds : List String
  warnings : List (String × String)
  indexEntries : List (String × String × String)
  target : Option String
deriving DecidableEq, Repr

/-- Python source, `CoqObject.add_target_and_index`: when `name` is truthy
(not `None`, not the empty string), attach the target and the index entry and
return the target id. -/
def add_target_and_index (makeId : String → String)
    (objtype : String) (indexSuffix : Option String) (docname : String)
    (objects : Objects) (docIds : List String) (name : Option String) : ATIResult :=
  match name with
  | some n =>
    if n = "" then ⟨objects, docIds, [], [], none⟩
    else
      let r := add_target makeId objtype docname objects docIds n
      ⟨r.objects, r.docIds, r.warnings, add_index_entry indexSuffix n r.targetid,
       some r.targetid⟩
  | none => ⟨objects, docIds, [], [], none⟩

/-- Python source, name computation in `CoqObject.handle_signature`: an
explicit name from the `:name:` option (`self._names`) wins unchanged;
otherwise the name derived by `_name_from_signature` has one trailing period
removed unless it ends in an ellipsis `...`. -/
def coq_handle_signature_name (names : List (String × String))
    (nameFromSig : String → Option String) (signature : String) : Option String :=
  match dictGet names signature with
  | some n => some n
  | none =>
    match nameFromSig signature with
    | none => none
    | some name =>
      some (if pyEndsWith name "." && !pyEndsWith name "..." then
              name.dropRight 1
            else name)

/-- Python source, `CoqObject._prepare_names`: with no `:name:` option the
name table is empty; otherwise the option is split on semicolons and
stripped, a count mismatch with the signature list raises the
count-mismatch error (carrying `(len(names), len(sigs))`), and on a match
`dict(zip(sigs, names))` is built.  `splitNames` is the list comprehension
`[n.strip() for n in names.split(";")]`. -/
def splitNames (names : String) : List String :=
  (splitOnChar ';' names.data).map (fun cs => pyStrip ⟨cs⟩)

def prepare_names (sigs : List String) (nameOpt : Option String) :
    Except (Nat × Nat) (List (String × String)) :=
  match nameOpt with
  | none => .ok []
  | some names =>
    if (splitNames names).length = sigs.length then
      .ok ((sigs.zip (splitNames names)).foldl (fun d kv => dictSet d kv.1 kv.2) [])
    else .error ((splitNames names).length, sigs.length)

/-- Python source, `ProductionObject.SIG_ERROR`. -/
def SIG_ERROR : String :=
  "Invalid syntax in ``.. prodn::`` directive" ++
  "\nExpected ``name ::= ...`` or ``name += ...``" ++
  " (e.g. ``pattern += constr:(@ident)``)"

/-- Python source, `notation_to_sphinx`: delegates to the external notation
adapter `sphinxify` and wraps the result in an inline node; a `ParseError`
is re-raised as an `ExtensionError` whose message (the `PARSE_ERROR`
template) carries the offending notation text and the adapter diagnostic.
The external adapter is a parameter of the model: `sphinxify ntext = some msg`
stands for a `ParseError` with message `msg`, `none` for a successful parse
(the produced inline node is only rendered, never registered, so it carries
no information the registry needs). -/
def notation_to_sphinx (sphinxify : String → Option String) (ntext : String) :
    Except String Unit :=
  match sphinxify ntext with
  | some msg =>
    .error ("Parse error in notation!\nOffending notation: " ++ ntext ++
      "\nError message: " ++ msg)
  | none => .ok ()

/-- Python source, `ProductionObject.handle_signature`: split the signature
on whitespace into at most three parts; anything but exactly three parts, or
an operator other than `::=` or `+=`, raises `SIG_ERROR`; then the
right-hand side is rendered through `notation_to_sphinx`, whose
`ParseError` aborts the declaration; finally `::=` yields the name
`('token', lhs)`, `+=` yields no name. -/
def prodn_handle_signature (sphinxify : String → Option String)
    (signature : String) : Except String (Option (String × String)) :=
  match pySplitStr 2 signature with
  | [p1, p2, p3] =>
    let lhs := pyStrip p1
    let op := pyStrip p2
    let rhs := pyStrip p3
    if op = "::=" || op = "+=" then
      match notation_to_sphinx sphinxify rhs with
      | .error e => .error e
      | .ok _ => .ok (if op = "::=" then some ("token", lhs) else none)
    else .error SIG_ERROR
  | _ => .error SIG_ERROR

/-- The Sphinx `std` domain object table used by the generic token-reference
mechanism: keys are `(objtype, name)` pairs such as `('token', lhs)`, values
are `(docname, targetid)`. -/
abbrev StdObjects := List ((String × String) × (String × String))

/-- Python source, `ProductionObject._target_id`: `'grammar-token-' + name[1]`. -/
def prodn_target_id (name : String × String) : String :=
  "grammar-token-" ++ name.2

/-- Python source, `ProductionObject._record_name`: the entry goes to the
shared `std` domain table (not a Coq subdomain), with the inherited
duplicate warning. -/
def prodn_record_name (std : StdObjects) (docname : String)
    (name : String × String) (targetid : String) :
    StdObjects × List ((String × String) × String) :=
  let ws :=
    match dictGet std name with
    | some other => [(name, other.1)]
    | none => []
  (dictSet std name (docname, targetid), ws)

/-- Result of processing one `.. prodn::` signature. -/
structure ProdnResult where
  std : StdObjects
  docIds : List String
  warnings : List ((String × String) × String)
  target : Option String
deriving DecidableEq, Repr

/-- The `_add_target` path of `ProductionObject` (inherited from `CoqObject`,
with the production-specific target id and `std` table). -/
def prodn_add_target (docname : String) (std : StdObjects) (docIds : List String)
    (name : String × String) : StdObjects × List String × List ((String × String) × String) × String :=
  let targetid := prodn_target_id name
  if docIds.contains targetid then (std, docIds, [], targetid)
  else
    let r := prodn_record_name std docname name targetid
    (r.1, docIds ++ [targetid], r.2, targetid)

/-- Processing of one `.. prodn::` signature: `handle_signature` followed by
`add_target_and_index` (whose `_add_index_entry` is `pass` for productions;
a tuple name is always truthy). -/
def prodn_process (sphinxify : String → Option String) (docname : String)
    (std : StdObjects) (docIds : List String)
    (signature : String) : Except String ProdnResult :=
  match prodn_handle_signature sphinxify signature with
  | .error e => .error e
  | .ok none => .ok ⟨std, docIds, [], none⟩
  | .ok (some name) =>
    let r := prodn_add_target docname std docIds name
    .ok ⟨r.1, r.2.1, r.2.2.1, some r.2.2.2⟩

/-- Static data of a `CoqSubdomainsIndex` subclass. -/
structure CoqIndex where
  name : String
  localname : String
  shortname : String
  subdomains : List String
deriving DecidableEq, Repr

/-- Python source, `CoqVernacIndex`. -/
def CoqVernacIndex : CoqIndex := ⟨"cmdindex", "Command Index", "commands", ["cmd"]⟩

/-- Python source, `CoqTacticIndex`. -/
def CoqTacticIndex : CoqIndex := ⟨"tacindex", "Tactic Index", "tactics", ["tacn"]⟩

/-- Python source, `CoqOptionIndex`. -/
def CoqOptionIndex : CoqIndex :=
  ⟨"optindex", "Flags, options and Tables Index", "options", ["flag", "opt", "table"]⟩

/-- Python source, `CoqGallinaIndex`. -/
def CoqGallinaIndex : CoqIndex := ⟨"thmindex", "Gallina Index", "theorems", ["thm"]⟩

/-- Python source, `CoqExceptionIndex`. -/
def CoqExceptionIndex : CoqIndex :=
  ⟨"exnindex", "Errors and Warnings Index", "errors", ["exn", "warn"]⟩

/-- Python source, `CoqDomain.indices`. -/
def coq_indices : List CoqIndex :=
  [CoqVernacIndex, CoqTacticIndex, CoqOptionIndex, CoqGallinaIndex, CoqExceptionIndex]

/-- Python source, `CoqDomain.find_index_by_name`: first index with the
given name, else `None`. -/
def find_index_by_name (targetid : String) : Option CoqIndex :=
  coq_indices.find? (fun idx => idx.name == targetid)

/-- One entry of a generated index: Sphinx's
`[dispname, subtype, docname, anchor, extra, qualifier, description]`; the
source always passes `0`, `''`, `''`, `''` for the last four slots. -/
structure IndexEntry where
  dispname : String
  subtype : Nat
  docname : String
  anchor : String
  extra : String
  qualifier : String
  descr : String
deriving DecidableEq, Repr

/-- Lexicographic comparison of character lists by code point, the order
Python uses on strings. -/
def charListLe : List Char → List Char → Bool
  | [], _ => true
  | _ :: _, [] => false
  | c :: cs, d :: ds =>
    if c.toNat < d.toNat then true
    else if d.toNat < c.toNat then false
    else charListLe cs ds

/-- Python `a <= b` on strings. -/
def strLe (a b : String) : Bool := charListLe a.data b.data

/-- Sort key of `CoqSubdomainsIndex.generate`: `lambda x: x[0].lower()`. -/
def itemLe (a b : String × RegEntry) : Bool := strLe (pyLower a.1) (pyLower b.1)

/-- Ordering of the final `sorted(content.items())` (bucket keys are unique,
so the comparison never reaches the entry lists). -/
def bucketLe (a b : String × List IndexEntry) : Bool := strLe a.1 b.1

/-- Python `itemname[0].lower()`, the bucket key of an index entry.  (Python
raises `IndexError` on an empty name; the model totalizes with a blank.) -/
def letterOf (s : String) : String := ⟨[Char.toLower (s.data.headD ' ')]⟩

/-- The index entry built for one registry item:
`[itemname, 0, docname, anchor, '', '', '']`. -/
def mkIndexEntry (it : String × RegEntry) : IndexEntry :=
  ⟨it.1, 0, it.2.docname, it.2.targetid, "", "", ""⟩

/-- Python source, the filter in `generate`:
`if docnames and docname not in docnames: continue`.  Note Python truthiness:
`None` and the empty collection both disable the filter. -/
def skipEntry (docnames : Option (List String)) (docname : String) : Bool :=
  match docnames with
  | none => false
  | some l => !l.isEmpty && !l.contains docname

/-- Appending to `content[key]` where `content` is a `defaultdict(list)`:
an existing bucket grows at its position, a new bucket is appended. -/
def addToBucket (acc : List (String × List IndexEntry)) (key : String)
    (e : IndexEntry) : List (String × List IndexEntry) :=
  match acc with
  | [] => [(key, [e])]
  | (k, es) :: rest =>
    if k = key then (k, es ++ [e]) :: rest else (k, es) :: addToBucket rest key e

/-- Stable insertion of `x` into a sorted list: `x` lands after every element
`y` with `le y x`. -/
def sInsert {α : Type} (le : α → α → Bool) (x : α) : List α → List α
  | [] => [x]
  | y :: ys => if le y x then y :: sInsert le x ys else x :: y :: ys

/-- Stable sort (Python `sorted`; stable sorts by a total preorder agree, so
this matches Python exactly). -/
def stableSort {α : Type} (le : α → α → Bool) (xs : List α) : List α :=
  xs.foldl (fun acc x => sInsert le x acc) []

/-- Python source, `CoqSubdomainsIndex.generate`: chain the listed
subdomains' tables, sort case-insensitively by name, drop entries outside
the (truthy) `docnames` restriction, bucket by the lowercased first
character, sort the buckets, and never collapse. -/
def generate (idx : CoqIndex) (reg : Registry) (docnames : Option (List String)) :
    List (String × List IndexEntry) × Bool :=
  let items := (idx.subdomains.map (fun sd => dictGetD reg sd [])).flatten
  let sortedItems := stableSort itemLe items
  let content := sortedItems.foldl
    (fun acc it =>
      if skipEntry docnames it.2.docname then acc
      else addToBucket acc (letterOf it.1) (mkIndexEntry it)) []
  (stableSort bucketLe content, false)

/-- Python source, `CoqDomain.resolve_xref`: the reserved `index` role is
resolved against the fixed index table (to the index page anchor, modelled
as `("coq-" ++ index name, "")`); every other role looks up its subdomain
table and returns `(docname, targetid)`; a miss is `None` (reported, never
fatal). -/
def resolve_xref (reg : Registry) (role targetname : String) :
    Option (String × String) :=
  if role = "index" then
    match find_index_by_name targetname with
    | some idx => some ("coq-" ++ idx.name, "")
    | none => none
  else
    match registryGet reg role targetname with
    | some e => some (e.docname, e.targetid)
    | none => none

/-- Python source, `CoqDomain.clear_doc`: delete, in every subdomain, every
entry whose origin document equals the cleared one. -/
def clear_doc (docname_to_clear : String) (reg : Registry) : Registry :=
  reg.map (fun sd => (sd.1, sd.2.filter (fun p => p.2.docname != docname_to_clear)))

/-- One warning of `merge_domaindata`:
`(docname given to env.warn, duplicate name, origin of the earlier entry)`. -/
abbrev MergeWarning := String × String × String

/-- Inner loop of `CoqDomain.merge_domaindata` over one subdomain: every
batch entry whose origin is in `docnames` is inserted (after a duplicate
warning when the name is already present); other entries are skipped. -/
def merge_objects (docnames : List String) (ours theirs : Objects) :
    Objects × List MergeWarning :=
  theirs.foldl
    (fun acc nv =>
      if nv.2.docname ∈ docnames then
        (dictSet acc.1 nv.1 nv.2,
         match dictGet acc.1 nv.1 with
         | some old => acc.2 ++ [(nv.2.docname, nv.1, old.docname)]
         | none => acc.2)
      else acc)
    (ours, [])

/-- Python source, `CoqDomain.merge_domaindata`: run the inner loop for every
subdomain of the batch registry.  (Python indexes
`self.data['objects'][subdomain]` directly, which assumes the subdomain key
exists; both registries are created from the same fixed `initial_data` keys,
and the model totalizes the lookup with an empty table.) -/
def merge_domaindata (docnames : List String) (ours theirs : Registry) :
    Registry × List MergeWarning :=
  theirs.foldl
    (fun acc sdObjs =>
      let merged := merge_objects docnames (dictGetD acc.1 sdObjs.1 []) sdObjs.2
      (dictSet acc.1 sdObjs.1 merged.1, acc.2 ++ merged.2))
    (ours, [])

/-- Python source, `CoqDomain.initial_data['objects']`: the fixed subdomain
keys, all initially empty. -/
def initial_objects : Registry :=
  [("cmd", []), ("tacn", []), ("opt", []), ("flag", []), ("table", []),
   ("thm", []), ("prodn", []), ("exn", []), ("warn", [])]

/-- Registry component of `merge_objects` with the warnings stripped
(proof scaffolding; `merge_objects_fst` below relates the two). -/
def objsAfter (docnames : List String) (ours theirs : Objects) : Objects :=
  theirs.foldl
    (fun o nv => if nv.2.docname ∈ docnames then dictSet o nv.1 nv.2 else o) ours

/-- Registry component of `merge_domaindata` with the warnings stripped
(proof scaffolding; `merge_domaindata_fst` below relates the two). -/
def regAfter (docnames : List String) (ours theirs : Registry) : Registry :=
  theirs.foldl
    (fun reg sdo => dictSet reg sdo.1 (objsAfter docnames (dictGetD reg sdo.1 []) sdo.2))
    ours

theorem dictGet_dictSet_self {α β : Type} [DecidableEq α]
    (d : List (α × β)) (k : α) (v : β) : dictGet (dictSet d k v) k = some v := by
  induction d with
  | nil => simp [dictGet, dictSet]
  | cons hd tl ih =>
    obtain ⟨k0, v0⟩ := hd
    by_cases h : k0 = k
    · simp [dictGet, dictSet, h]
    · simp [dictGet, dictSet, h, ih]

theorem dictGet_dictSet_ne {α β : Type} [DecidableEq α]
    (d : List (α × β)) (k k' : α) (v : β) (h : k ≠ k') :
    dictGet (dictSet d k v) k' = dictGet d k' := by
  induction d with
  | nil => simp [dictGet, dictSet, h]
  | cons hd tl ih =>
    obtain ⟨k0, v0⟩ := hd
    by_cases h0 : k0 = k
    · subst h0
      simp [dictGet, dictSet, h]
    · simp only [dictSet, if_neg h0]
      by_cases h1 : k0 = k'
      · simp [dictGet, h1]
      · simp [dictGet, h1, ih]

theorem dictSet_of_get_eq {α β : Type} [DecidableEq α]
    (d : List (α × β)) (k : α) (v : β) (h : dictGet d k = some v) :
    dictSet d k v = d := by
  induction d with
  | nil => simp [dictGet] at h
  | cons hd tl ih =>
    obtain ⟨k0, v0⟩ := hd
    by_cases h0 : k0 = k
    · subst h0
      simp [dictGet] at h
      simp [dictSet, h]
    · simp [dictGet, h0] at h
      simp [dictSet, h0, ih h]

theorem dictGet_mem {α β : Type} [DecidableEq α] {d : List (α × β)} {k : α} {v : β}
    (h : dictGet d k = some v) : (k, v) ∈ d := by
  induction d with
  | nil => simp [dictGet] at h
  | cons hd tl ih =>
    obtain ⟨k0, v0⟩ := hd
    by_cases h0 : k0 = k
    · subst h0
      simp [dictGet] at h
      simp [h]
    · simp [dictGet, h0] at h
      exact List.mem_cons_of_mem _ (ih h)

theorem dictGet_eq_none_of_not_mem_keys {α β : Type} [DecidableEq α]
    {d : List (α × β)} {k : α} (h : k ∉ d.map Prod.fst) : dictGet d k = none := by
  induction d with
  | nil => simp [dictGet]
  | cons hd tl ih =>
    obtain ⟨k0, v0⟩ := hd
    simp only [List.map_cons, List.mem_cons] at h
    push_neg at h
    have hne : ¬ k0 = k := fun h' => h.1 h'.symm
    simp [dictGet, hne, ih h.2]

theorem dictGet_map_snd {α β : Type} [DecidableEq α] (f : β → β)
    (d : List (α × β)) (k : α) :
    dictGet (d.map (fun p => (p.1, f p.2))) k = (dictGet d k).map f := by
  induction d with
  | nil => simp [dictGet]
  | cons hd tl ih =>
    obtain ⟨k0, v0⟩ := hd
    by_cases h0 : k0 = k
    · simp [dictGet, h0]
    · simp [dictGet, h0, ih]

/-- Characters of the appended pieces of a `make_target` result. -/
theorem make_target_data (o s : String) :
    (make_target o s).data = "coq:".data ++ (o.data ++ '.' :: s.data) := by
  show (("coq:" ++ o ++ "." ++ s).data) = _
  simp [String.data_append]

theorem dotfree_append_inj {l1 r1 l2 r2 : List Char}
    (h1 : '.' ∉ l1) (h2 : '.' ∉ l2)
    (h : l1 ++ '.' :: r1 = l2 ++ '.' :: r2) : l1 = l2 ∧ r1 = r2 := by
  induction l1 generalizing l2 with
  | nil =>
    cases l2 with
    | nil => simpa using h
    | cons c cs =>
      simp only [List.nil_append, List.cons_append, List.cons.injEq] at h
      exact absurd (h.1 ▸ List.mem_cons_self c cs) h2
  | cons c cs ih =>
    cases l2 with
    | nil =>
      simp only [List.cons_append, List.nil_append, List.cons.injEq] at h
      exact absurd (h.1.symm ▸ List.mem_cons_self c cs) h1
    | cons c2 cs2 =>
      simp only [List.cons_append, List.cons.injEq] at h
      obtain ⟨rfl, h⟩ := h
      have h1' : '.' ∉ cs := fun hm => h1 (List.mem_cons_of_mem _ hm)
      have h2' : '.' ∉ cs2 := fun hm => h2 (List.mem_cons_of_mem _ hm)
      obtain ⟨rfl, rfl⟩ := ih h1' h2' h
      exact ⟨rfl, rfl⟩

/-- C2 (counterexample): `make_target` is not injective over all string
pairs: an object type containing a period collides with another pair. -/
theorem make_target_not_globally_injective :
    make_target "a.b" "c" = make_target "a" "b.c" ∧
    (("a.b", "c") : String × String) ≠ ("a", "b.c") := by
  exact ⟨rfl, by decide⟩

/-- C2 (amended): `make_target(object_type, slug)` deterministically returns
`"coq:" ++ object_type ++ "." ++ slug`, and it is injective on every pair
whose object type contains no period — which holds for every object type of
the domain (`CoqDomain.object_types`). -/
theorem make_target_injective_on_dotfree_objtypes :
    (∀ t ∈ coq_objtype_names, '.' ∉ t.data) ∧
    (∀ o s : String, make_target o s = "coq:" ++ o ++ "." ++ s) ∧
    (∀ o1 s1 o2 s2 : String, '.' ∉ o1.data → '.' ∉ o2.data →
      (make_target o1 s1 = make_target o2 s2 ↔ o1 = o2 ∧ s1 = s2)) := by
  refine ⟨by decide, fun o s => rfl, fun o1 s1 o2 s2 h1 h2 => ⟨fun h => ?_, ?_⟩⟩
  · have hd := congrArg String.data h
    rw [make_target_data, make_target_data] at hd
    have hd2 := List.append_cancel_left hd
    obtain ⟨ho, hs⟩ := dotfree_append_inj h1 h2 hd2
    exact ⟨String.ext ho, String.ext hs⟩
  · rintro ⟨rfl, rfl⟩
    rfl

/-- C2 (witness). -/
theorem make_target_injective_witness :
    make_target "cmd" "exact" ≠ make_target "tacn" "exact" := by
  intro h
  have h2 := (make_target_injective_on_dotfree_objtypes.2.2 "cmd" "exact" "tacn" "exact"
    (by decide) (by decide)).mp h
  exact absurd h2.1 (by decide)

/-- C1: inserting the same name twice into one subdomain (two registrations
through `_record_name` via `_add_target`, each in a document where the
target id is fresh) never aborts (all operations are total), emits exactly
one duplicate warning — at the second registration, citing the first
registration's origin document — and leaves the table mapping the name to
the second registration's `(origin, type, target)`, so `resolve_xref`
afterwards returns the second registration's document and target. -/
theorem duplicate_registration_warns_and_overwrites
    (makeId : String → String) (t1 d1 t2 d2 name sd : String)
    (objs0 : Objects) (ids1 ids2 : List String)
    (h0 : dictGet objs0 name = none)
    (h1 : target_id makeId t1 name ∉ ids1)
    (h2 : target_id makeId t2 name ∉ ids2)
    (hsd : sd ≠ "index") :
    (add_target makeId t1 d1 objs0 ids1 name).warnings = [] ∧
    (add_target makeId t2 d2 (add_target makeId t1 d1 objs0 ids1 name).objects
        ids2 name).warnings = [(name, d1)] ∧
    dictGet (add_target makeId t2 d2 (add_target makeId t1 d1 objs0 ids1 name).objects
        ids2 name).objects name
      = some ⟨d2, t2, target_id makeId t2 name⟩ ∧
    resolve_xref
      [(sd, (add_target makeId t2 d2 (add_target makeId t1 d1 objs0 ids1 name).objects
          ids2 name).objects)] sd name
      = some (d2, target_id makeId t2 name) := by
  refine ⟨?_, ?_, ?_, ?_⟩
  · simp [add_target, h1, record_name, warn_if_duplicate_name, h0]
  · simp [add_target, h1, h2, record_name, warn_if_duplicate_name,
      dictGet_dictSet_self]
  · simp [add_target, h1, h2, record_name, dictGet_dictSet_self]
  · simp [resolve_xref, hsd, registryGet, dictGetD, dictGet, add_target, h1, h2,
      record_name, dictGet_dictSet_self]

/-- C1 (witness): two `tacn` objects named `simpl` in `doc1` then `doc2`. -/
theorem duplicate_registration_witness :
    (add_target id "tacn" "doc2"
        (add_target id "tacn" "doc1" [] [] "simpl").objects [] "simpl").warnings
      = [("simpl", "doc1")] :=
  (duplicate_registration_warns_and_overwrites id "tacn" "doc1" "tacn" "doc2"
    "simpl" "tacn" [] [] [] rfl (by simp) (by simp) (by decide)).2.1

/-- C10: when the computed target id is already among the current document's
claimed ids, `_add_target` registers nothing and warns nothing, yet still
returns that target id; hence a second declaration of the same name inside
one document leaves the first declaration's registry entry in place. -/
theorem same_document_duplicate_is_skipped
    (makeId : String → String) (objtype d name : String) (objs : Objects)
    (ids : List String) :
    (target_id makeId objtype name ∈ ids →
      add_target makeId objtype d objs ids name =
        ⟨objs, ids, [], target_id makeId objtype name⟩) ∧
    (target_id makeId objtype name ∉ ids →
      (add_target makeId objtype d
          (add_target makeId objtype d objs ids name).objects
          (add_target makeId objtype d objs ids name).docIds name =
        ⟨(add_target makeId objtype d objs ids name).objects,
         (add_target makeId objtype d objs ids name).docIds, [],
         (add_target makeId objtype d objs ids name).targetid⟩) ∧
      dictGet (add_target makeId objtype d objs ids name).objects name =
        some ⟨d, objtype, target_id makeId objtype name⟩) := by
  constructor
  · intro h
    simp [add_target, h]
  · intro h
    constructor
    · simp [add_target, h]
    · simp [add_target, h, record_name, dictGet_dictSet_self]

/-- C10 (witness): the second `cmd` declaration of `Foo` in `doc1` is a
no-op on the registry and returns the already-claimed target id. -/
theorem same_document_duplicate_witness :
    add_target id "cmd" "doc1"
        (add_target id "cmd" "doc1" [] [] "Foo").objects
        (add_target id "cmd" "doc1" [] [] "Foo").docIds "Foo" =
      ⟨(add_target id "cmd" "doc1" [] [] "Foo").objects,
       (add_target id "cmd" "doc1" [] [] "Foo").docIds, [],
       (add_target id "cmd" "doc1" [] [] "Foo").targetid⟩ :=
  (((same_document_duplicate_is_skipped id "cmd" "doc1" "Foo" [] []).2) (by simp)).1

/-- C6: a name derived by `_name_from_signature` (no explicit `:name:`
option matches the signature) loses exactly one trailing period when it ends
with `.` but not with `...`, and is kept unchanged when it ends with an
ellipsis `...` (and also when it has no trailing period at all). -/
theorem derived_name_trailing_period
    (names : List (String × String)) (nameFromSig : String → Option String)
    (signature nm : String)
    (hexp : dictGet names signature = none)
    (hder : nameFromSig signature = some nm) :
    (pyEndsWith nm "." = true → pyEndsWith nm "..." = false →
      coq_handle_signature_name names nameFromSig signature
        = some (nm.dropRight 1)) ∧
    (pyEndsWith nm "..." = true →
      coq_handle_signature_name names nameFromSig signature = some nm) ∧
    (pyEndsWith nm "." = false →
      coq_handle_signature_name names nameFromSig signature = some nm) := by
  refine ⟨fun hdot helps => ?_, fun helps => ?_, fun hdot => ?_⟩
  · simp [coq_handle_signature_name, hexp, hder, hdot, helps]
  · have hdot : pyEndsWith nm "." = true := by
      simp only [pyEndsWith] at helps ⊢
      have : ("." : String).data.IsSuffix ("..." : String).data := ⟨['.', '.'], rfl⟩
      exact List.isSuffixOf_iff_suffix.mpr
        (this.trans (List.isSuffixOf_iff_suffix.mp helps))
    simp [coq_handle_signature_name, hexp, hder, hdot, helps]
  · have helps : pyEndsWith nm "..." = false := by
      by_contra hne
      have helps : pyEndsWith nm "..." = true := by
        cases h3 : pyEndsWith nm "..." with
        | true => rfl
        | false => exact absurd h3 hne
      have : pyEndsWith nm "." = true := by
        simp only [pyEndsWith] at helps ⊢
        have : ("." : String).data.IsSuffix ("..." : String).data := ⟨['.', '.'], rfl⟩
        exact List.isSuffixOf_iff_suffix.mpr
          (this.trans (List.isSuffixOf_iff_suffix.mp helps))
      rw [this] at hdot
      cases hdot
    simp [coq_handle_signature_name, hexp, hder, hdot, helps]

/-- C6 (witness): the derived command name `Set Foo.` becomes `Set Foo`,
while the derived name `intros ...` keeps its ellipsis. -/
theorem derived_name_trailing_period_witness :
    coq_handle_signature_name [] (fun _ => some "Set Foo.") "Set Foo."
        = some "Set Foo" ∧
    coq_handle_signature_name [] (fun _ => some "intros ...") "intros ..."
        = some "intros ..." := by
  constructor
  · have h := (derived_name_trailing_period [] (fun _ => some "Set Foo.")
      "Set Foo." "Set Foo." rfl rfl).1 (by decide) (by decide)
    rw [h]
    decide
  · exact (derived_name_trailing_period [] (fun _ => some "intros ...")
      "intros ..." "intros ..." rfl rfl).2.1 (by decide)

theorem dictGet_foldl_dictSet_not_mem {α β : Type} [DecidableEq α]
    (pairs : List (α × β)) (d0 : List (α × β)) (k : α)
    (h : k ∉ pairs.map Prod.fst) :
    dictGet (pairs.foldl (fun d kv => dictSet d kv.1 kv.2) d0) k = dictGet d0 k := by
  induction pairs generalizing d0 with
  | nil => simp
  | cons hd tl ih =>
    obtain ⟨k0, v0⟩ := hd
    simp only [List.map_cons, List.mem_cons] at h
    push_neg at h
    have hne : k0 ≠ k := fun h' => h.1 h'.symm
    simp only [List.foldl_cons]
    rw [ih _ h.2, dictGet_dictSet_ne _ _ _ _ hne]

theorem dictGet_foldl_dictSet_mem {α β : Type} [DecidableEq α]
    (pairs : List (α × β)) (d0 : List (α × β)) (k : α) (v : β)
    (hnd : (pairs.map Prod.fst).Nodup) (hmem : (k, v) ∈ pairs) :
    dictGet (pairs.foldl (fun d kv => dictSet d kv.1 kv.2) d0) k = some v := by
  induction pairs generalizing d0 with
  | nil => simp at hmem
  | cons hd tl ih =>
    obtain ⟨k0, v0⟩ := hd
    simp only [List.map_cons, List.nodup_cons] at hnd
    rcases List.mem_cons.mp hmem with heq | htl
    · have hk : k = k0 := congrArg Prod.fst heq
      have hv : v = v0 := congrArg Prod.snd heq
      subst hk
      subst hv
      simp only [List.foldl_cons]
      rw [dictGet_foldl_dictSet_not_mem _ _ _ hnd.1, dictGet_dictSet_self]
    · simp only [List.foldl_cons]
      exact ih _ hnd.2 htl

/-- C9: with an explicit `:name:` option, `_prepare_names` splits the option
on semicolons (stripping each part) and fails with the count-mismatch error
exactly when the number of names differs from the number of signatures; on a
match, the i-th signature is mapped to the i-th name. -/
theorem name_count_mismatch_check (sigs : List String) (names : String) :
    ((prepare_names sigs (some names)).isOk = true ↔
        (splitNames names).length = sigs.length) ∧
    ((splitNames names).length ≠ sigs.length →
      prepare_names sigs (some names)
        = .error ((splitNames names).length, sigs.length)) ∧
    ((splitNames names).length = sigs.length → sigs.Nodup →
      ∀ i (hi : i < sigs.length) (hip : i < (splitNames names).length) d,
        prepare_names sigs (some names) = .ok d →
        dictGet d sigs[i] = some (splitNames names)[i]) := by
  have hpn : prepare_names sigs (some names)
      = if (splitNames names).length = sigs.length then
          .ok ((sigs.zip (splitNames names)).foldl
            (fun d kv => dictSet d kv.1 kv.2) [])
        else .error ((splitNames names).length, sigs.length) := rfl
  refine ⟨?_, fun hne => ?_, fun hlen hnd i hi hip d hok => ?_⟩
  · rw [hpn]
    by_cases hc : (splitNames names).length = sigs.length
    · simp [hc, Except.isOk, Except.toBool]
    · simp [hc, Except.isOk, Except.toBool]
  · rw [hpn, if_neg hne]
  · rw [hpn, if_pos hlen] at hok
    have hd : d = (sigs.zip (splitNames names)).foldl
        (fun d kv => dictSet d kv.1 kv.2) [] := by
      cases hok
      rfl
    subst hd
    have hkeys : (sigs.zip (splitNames names)).map Prod.fst = sigs :=
      List.map_fst_zip _ _ (le_of_eq hlen.symm)
    refine dictGet_foldl_dictSet_mem _ _ _ _ ?_ ?_
    · rw [hkeys]
      exact hnd
    · have hz := @List.getElem_zip _ _ sigs (splitNames names) i
        (by rw [List.length_zip]; omega)
      rw [← hz]
      exact List.getElem_mem _

/-- C9 (witness): two names for two signatures succeed positionally; two
names for one signature fail with the count-mismatch error. -/
theorem name_count_mismatch_witness :
    (∀ d, prepare_names ["sig1", "sig2"] (some "CoNat ; Prod") = .ok d →
      dictGet d "sig2" = some "Prod") ∧
    prepare_names ["sig1"] (some "CoNat ; Prod") = .error (2, 1) := by
  constructor
  · intro d hd
    have h := (name_count_mismatch_check ["sig1", "sig2"] "CoNat ; Prod").2.2
      (by decide) (by decide) 1 (by decide) (by decide) d hd
    exact h
  · exact (name_count_mismatch_check ["sig1"] "CoNat ; Prod").2.1 (by decide)

theorem dictGet_filter {α β : Type} [DecidableEq α] (q : α × β → Bool)
    (d : List (α × β)) (k : α) (hnd : (d.map Prod.fst).Nodup) :
    dictGet (d.filter q) k
      = match dictGet d k with
        | some v => if q (k, v) then some v else none
        | none => none := by
  induction d with
  | nil => simp [dictGet]
  | cons hd tl ih =>
    obtain ⟨k0, v0⟩ := hd
    simp only [List.map_cons, List.nodup_cons] at hnd
    have hih := ih hnd.2
    by_cases h0 : k0 = k
    · subst h0
      have hnone : dictGet tl k0 = none :=
        dictGet_eq_none_of_not_mem_keys hnd.1
      cases hq : q (k0, v0) with
      | true =>
        rw [List.filter_cons, if_pos hq]
        simp [dictGet, hq]
      | false =>
        rw [List.filter_cons, if_neg (by simp [hq])]
        rw [hih, hnone]
        simp [dictGet, hq]
    · cases hq : q (k0, v0) with
      | true =>
        rw [List.filter_cons, if_pos hq]
        simp [dictGet, h0, hih]
      | false =>
        rw [List.filter_cons, if_neg (by simp [hq])]
        simp [dictGet, h0, hih]

/-- C4: `clear_doc(d)` removes from every subdomain exactly the entries
whose origin document is `d` (lookups of entries with another origin are
unchanged); consequently a name whose only entry originated from `d`
becomes unresolvable. -/
theorem clear_doc_removes_exactly_origin (reg : Registry) (d sd name : String)
    (hnd : ∀ p ∈ reg, (p.2.map Prod.fst).Nodup) :
    (registryGet (clear_doc d reg) sd name
      = match registryGet reg sd name with
        | some e => if e.docname = d then none else some e
        | none => none) ∧
    (∀ e, registryGet reg sd name = some e → e.docname = d → sd ≠ "index" →
      resolve_xref (clear_doc d reg) sd name = none) := by
  have hmap : dictGet (clear_doc d reg) sd
      = (dictGet reg sd).map (fun objs => objs.filter (fun kv => kv.2.docname != d)) :=
    dictGet_map_snd _ reg sd
  have hmain : registryGet (clear_doc d reg) sd name
      = match registryGet reg sd name with
        | some e => if e.docname = d then none else some e
        | none => none := by
    unfold registryGet dictGetD
    rw [hmap]
    cases hsd : dictGet reg sd with
    | none => simp [dictGet]
    | some objs =>
      have hred : (Option.map (fun objs => List.filter (fun kv => kv.2.docname != d) objs)
          (some objs)).getD [] = List.filter (fun kv => kv.2.docname != d) objs := rfl
      have hred2 : ((some objs).getD ([] : Objects)) = objs := rfl
      rw [hred, hred2, dictGet_filter _ _ _ (hnd _ (dictGet_mem hsd))]
      cases hget : dictGet objs name with
      | none => rfl
      | some e =>
        by_cases he : e.docname = d
        · simp [he]
        · simp [he, bne_iff_ne]
  refine ⟨hmain, fun e hsome hdoc hsd => ?_⟩
  have : registryGet (clear_doc d reg) sd name = none := by
    rw [hmain, hsome]
    simp [hdoc]
  simp [resolve_xref, hsd, this]

/-- C4 (witness): after clearing `doc1`, the command `Foo` owned solely by
`doc1` no longer resolves, while an entry from `doc2` survives. -/
theorem clear_doc_witness :
    resolve_xref
        (clear_doc "doc1"
          [("cmd", [("Foo", ⟨"doc1", "cmd", "coq:cmd.foo"⟩),
                    ("Bar", ⟨"doc2", "cmd", "coq:cmd.bar"⟩)])])
        "cmd" "Foo" = none ∧
    registryGet
        (clear_doc "doc1"
          [("cmd", [("Foo", ⟨"doc1", "cmd", "coq:cmd.foo"⟩),
                    ("Bar", ⟨"doc2", "cmd", "coq:cmd.bar"⟩)])])
        "cmd" "Bar" = some ⟨"doc2", "cmd", "coq:cmd.bar"⟩ := by
  constructor
  · exact (clear_doc_removes_exactly_origin
      [("cmd", [("Foo", ⟨"doc1", "cmd", "coq:cmd.foo"⟩),
                ("Bar", ⟨"doc2", "cmd", "coq:cmd.bar"⟩)])]
      "doc1" "cmd" "Foo" (by decide)).2 ⟨"doc1", "cmd", "coq:cmd.foo"⟩
      (by decide) rfl (by decide)
  · have h := (clear_doc_removes_exactly_origin
      [("cmd", [("Foo", ⟨"doc1", "cmd", "coq:cmd.foo"⟩),
                ("Bar", ⟨"doc2", "cmd", "coq:cmd.bar"⟩)])]
      "doc1" "cmd" "Bar" (by decide)).1
    rw [h]
    decide

/-- C5: a `.. prodn::` signature that splits into `(lhs, op, rhs)` and whose
right-hand side the external notation adapter accepts: with op `::=` it
registers the key `('token', lhs)` in the shared `std` token table with
target `grammar-token-<lhs>` (and that key then resolves through the generic
token table lookup); with op `+=` nothing is registered and no target is
returned.  A signature that does not split into exactly three parts, or
whose operator is neither `::=` nor `+=`, fails with `SIG_ERROR`; and a
right-hand side the adapter rejects aborts the declaration with the
parse-error message, registering nothing. -/
theorem production_registration
    (sphinxify : String → Option String)
    (sig lhs rhs p1 p2 p3 docname msg : String) (std : StdObjects)
    (docIds : List String) :
    (pySplitStr 2 sig = [lhs, "::=", rhs] →
      sphinxify (pyStrip rhs) = none →
      "grammar-token-" ++ pyStrip lhs ∉ docIds →
      prodn_process sphinxify docname std docIds sig
        = .ok ⟨(prodn_record_name std docname ("token", pyStrip lhs)
                  ("grammar-token-" ++ pyStrip lhs)).1,
               docIds ++ ["grammar-token-" ++ pyStrip lhs],
               (prodn_record_name std docname ("token", pyStrip lhs)
                  ("grammar-token-" ++ pyStrip lhs)).2,
               some ("grammar-token-" ++ pyStrip lhs)⟩ ∧
      dictGet (prodn_record_name std docname ("token", pyStrip lhs)
                  ("grammar-token-" ++ pyStrip lhs)).1 ("token", pyStrip lhs)
        = some (docname, "grammar-token-" ++ pyStrip lhs)) ∧
    (pySplitStr 2 sig = [lhs, "+=", rhs] →
      sphinxify (pyStrip rhs) = none →
      prodn_process sphinxify docname std docIds sig
        = .ok ⟨std, docIds, [], none⟩) ∧
    ((pySplitStr 2 sig).length ≠ 3 →
      prodn_process sphinxify docname std docIds sig = .error SIG_ERROR) ∧
    (pySplitStr 2 sig = [p1, p2, p3] → pyStrip p2 ≠ "::=" → pyStrip p2 ≠ "+=" →
      prodn_process sphinxify docname std docIds sig = .error SIG_ERROR) ∧
    (pySplitStr 2 sig = [p1, p2, p3] →
      (pyStrip p2 = "::=" ∨ pyStrip p2 = "+=") →
      sphinxify (pyStrip p3) = some msg →
      prodn_process sphinxify docname std docIds sig
        = .error ("Parse error in notation!\nOffending notation: "
            ++ pyStrip p3 ++ "\nError message: " ++ msg)) := by
  refine ⟨fun h3 hpar hfresh => ⟨?_, ?_⟩, fun h3 hpar => ?_, fun hlen => ?_,
    fun h3 hop1 hop2 => ?_, fun h3 hop hpar => ?_⟩
  · have hhs : prodn_handle_signature sphinxify sig
        = .ok (some ("token", pyStrip lhs)) := by
      unfold prodn_handle_signature
      rw [h3]
      have hop : pyStrip "::=" = "::=" := by decide
      simp [notation_to_sphinx, hop, hpar]
    unfold prodn_process
    rw [hhs]
    unfold prodn_add_target prodn_target_id
    simp [hfresh]
  · exact dictGet_dictSet_self _ _ _
  · have hhs : prodn_handle_signature sphinxify sig = .ok none := by
      unfold prodn_handle_signature
      rw [h3]
      have hop : pyStrip "+=" = "+=" := by decide
      have hop2 : pyStrip "+=" ≠ "::=" := by decide
      simp [notation_to_sphinx, hop, hop2, hpar]
    unfold prodn_process
    rw [hhs]
  · have hhs : prodn_handle_signature sphinxify sig = .error SIG_ERROR := by
      unfold prodn_handle_signature
      rcases hl : pySplitStr 2 sig with _ | ⟨q1, _ | ⟨q2, _ | ⟨q3, rest⟩⟩⟩
      · rfl
      · rfl
      · rfl
      · cases rest with
        | nil =>
          rw [hl] at hlen
          simp at hlen
        | cons r rs => rfl
    unfold prodn_process
    rw [hhs]
  · have hhs : prodn_handle_signature sphinxify sig = .error SIG_ERROR := by
      unfold prodn_handle_signature
      rw [h3]
      simp [hop1, hop2]
    unfold prodn_process
    rw [hhs]
  · have hhs : prodn_handle_signature sphinxify sig
        = .error ("Parse error in notation!\nOffending notation: "
            ++ pyStrip p3 ++ "\nError message: " ++ msg) := by
      unfold prodn_handle_signature
      rw [h3]
      rcases hop with hop | hop
      · simp [notation_to_sphinx, hop, hpar]
      · simp [notation_to_sphinx, hop, hpar]
    unfold prodn_process
    rw [hhs]

/-- C5 (witness): with an adapter accepting the notation,
`term ::= let: @pattern := @term in @term` registers the token `term` and
`term += @ident` registers nothing; a signature without an operator fails
with `SIG_ERROR`; and with an adapter rejecting the right-hand side, the
declaration aborts with the parse-error message. -/
theorem production_registration_witness :
    prodn_process (fun _ => none) "doc1" [] []
        "term ::= let: @pattern := @term in @term"
      = .ok ⟨[(("token", "term"), ("doc1", "grammar-token-term"))],
             ["grammar-token-term"], [], some "grammar-token-term"⟩ ∧
    prodn_process (fun _ => none) "doc1"
        [(("token", "term"), ("doc1", "grammar-token-term"))]
        ["grammar-token-term"] "term += @ident"
      = .ok ⟨[(("token", "term"), ("doc1", "grammar-token-term"))],
             ["grammar-token-term"], [], none⟩ ∧
    prodn_process (fun _ => none) "doc1" [] [] "term" = .error SIG_ERROR ∧
    prodn_process (fun _ => some "no such token") "doc1" [] [] "term ::= @bad"
      = .error ("Parse error in notation!\nOffending notation: @bad"
          ++ "\nError message: no such token") := by
  refine ⟨?_, ?_, ?_, ?_⟩
  · have h := ((production_registration (fun _ => none)
      "term ::= let: @pattern := @term in @term"
      "term" "let: @pattern := @term in @term" "" "" "" "doc1" "" [] []).1
      (by decide) rfl (by simp)).1
    rw [h]
    rfl
  · exact (production_registration (fun _ => none) "term += @ident" "term"
      "@ident" "" "" "" "doc1" ""
      [(("token", "term"), ("doc1", "grammar-token-term"))]
      ["grammar-token-term"]).2.1 (by decide) rfl
  · exact (production_registration (fun _ => none) "term" "" "" "" "" "" "doc1"
      "" [] []).2.2.1 (by decide)
  · have h := (production_registration (fun _ => some "no such token")
      "term ::= @bad" "" "" "term" "::=" "@bad" "doc1" "no such token"
      [] []).2.2.2.2 (by decide) (Or.inl (by decide)) rfl
    rw [h]
    rfl

theorem merge_objects_fst (d : List String) (theirs o : Objects) :
    (merge_objects d o theirs).1 = objsAfter d o theirs := by
  suffices h : ∀ (l : Objects) (o : Objects) (w0 : List MergeWarning),
      (l.foldl
        (fun acc nv =>
          if nv.2.docname ∈ d then
            (dictSet acc.1 nv.1 nv.2,
             match dictGet acc.1 nv.1 with
             | some old => acc.2 ++ [(nv.2.docname, nv.1, old.docname)]
             | none => acc.2)
          else acc)
        (o, w0)).1 = objsAfter d o l by
    exact h theirs o []
  intro l
  induction l with
  | nil => intro o w0; rfl
  | cons hd tl ih =>
    intro o w0
    by_cases hc : hd.2.docname ∈ d
    · simp only [List.foldl_cons, objsAfter, if_pos hc]
      exact ih _ _
    · simp only [List.foldl_cons, objsAfter, if_neg hc]
      exact ih _ _

theorem objsAfter_get_notmem (d : List String) (theirs o : Objects) (n : String)
    (h : n ∉ theirs.map Prod.fst) :
    dictGet (objsAfter d o theirs) n = dictGet o n := by
  induction theirs generalizing o with
  | nil => rfl
  | cons hd tl ih =>
    simp only [List.map_cons, List.mem_cons] at h
    push_neg at h
    have hne : hd.1 ≠ n := fun h' => h.1 h'.symm
    by_cases hc : hd.2.docname ∈ d
    · simp only [objsAfter, List.foldl_cons, if_pos hc]
      rw [show (tl.foldl
        (fun o nv => if nv.2.docname ∈ d then dictSet o nv.1 nv.2 else o)
        (dictSet o hd.1 hd.2)) = objsAfter d (dictSet o hd.1 hd.2) tl from rfl]
      rw [ih _ h.2, dictGet_dictSet_ne _ _ _ _ hne]
    · simp only [objsAfter, List.foldl_cons, if_neg hc]
      exact ih _ h.2

theorem objsAfter_get_nocond (d : List String) (theirs o : Objects) (n : String)
    (h : ∀ e, (n, e) ∈ theirs → e.docname ∉ d) :
    dictGet (objsAfter d o theirs) n = dictGet o n := by
  induction theirs generalizing o with
  | nil => rfl
  | cons hd tl ih =>
    have htl : ∀ e, (n, e) ∈ tl → e.docname ∉ d :=
      fun e he => h e (List.mem_cons_of_mem _ he)
    by_cases hc : hd.2.docname ∈ d
    · have hne : hd.1 ≠ n := by
        intro h1
        obtain ⟨k0, v0⟩ := hd
        exact h v0 (h1 ▸ List.mem_cons_self _ _) hc
      simp only [objsAfter, List.foldl_cons, if_pos hc]
      rw [show (tl.foldl
        (fun o nv => if nv.2.docname ∈ d then dictSet o nv.1 nv.2 else o)
        (dictSet o hd.1 hd.2)) = objsAfter d (dictSet o hd.1 hd.2) tl from rfl]
      rw [ih _ htl, dictGet_dictSet_ne _ _ _ _ hne]
    · simp only [objsAfter, List.foldl_cons, if_neg hc]
      exact ih _ htl

theorem objsAfter_get_cond (d : List String) (theirs : Objects) :
    ∀ (o : Objects) (n : String) (e : RegEntry),
    (theirs.map Prod.fst).Nodup → (n, e) ∈ theirs → e.docname ∈ d →
    dictGet (objsAfter d o theirs) n = some e := by
  induction theirs with
  | nil =>
    intro o n e _ hmem _
    simp at hmem
  | cons hd tl ih =>
    intro o n e hnd hmem hc
    obtain ⟨k0, v0⟩ := hd
    simp only [List.map_cons, List.nodup_cons] at hnd
    rcases List.mem_cons.mp hmem with heq | htl
    · have hk : n = k0 := congrArg Prod.fst heq
      have hv : e = v0 := congrArg Prod.snd heq
      subst hk
      subst hv
      simp only [objsAfter, List.foldl_cons, if_pos hc]
      rw [show (tl.foldl
        (fun o nv => if nv.2.docname ∈ d then dictSet o nv.1 nv.2 else o)
        (dictSet o n e)) = objsAfter d (dictSet o n e) tl from rfl]
      rw [objsAfter_get_notmem d tl _ n hnd.1, dictGet_dictSet_self]
    · have hstep : ∀ o', dictGet (objsAfter d o' tl) n = some e :=
        fun o' => ih o' n e hnd.2 htl hc
      by_cases hcc : v0.docname ∈ d
      · simp only [objsAfter, List.foldl_cons, if_pos hcc]
        exact hstep _
      · simp only [objsAfter, List.foldl_cons, if_neg hcc]
        exact hstep _

theorem objsAfter_self (d : List String) (theirs o : Objects)
    (h : ∀ nv ∈ theirs, nv.2.docname ∈ d → dictGet o nv.1 = some nv.2) :
    objsAfter d o theirs = o := by
  induction theirs with
  | nil => rfl
  | cons hd tl ih =>
    have htl : ∀ nv ∈ tl, nv.2.docname ∈ d → dictGet o nv.1 = some nv.2 :=
      fun nv hnv => h nv (List.mem_cons_of_mem _ hnv)
    by_cases hc : hd.2.docname ∈ d
    · have hset : dictSet o hd.1 hd.2 = o :=
        dictSet_of_get_eq _ _ _ (h hd (List.mem_cons_self _ _) hc)
      simp only [objsAfter, List.foldl_cons, if_pos hc, hset]
      exact ih htl
    · simp only [objsAfter, List.foldl_cons, if_neg hc]
      exact ih htl

theorem merge_domaindata_fst (d : List String) (ours theirs : Registry) :
    (merge_domaindata d ours theirs).1 = regAfter d ours theirs := by
  suffices h : ∀ (l : Registry) (reg : Registry) (w0 : List MergeWarning),
      (l.foldl
        (fun acc sdObjs =>
          let merged := merge_objects d (dictGetD acc.1 sdObjs.1 []) sdObjs.2
          (dictSet acc.1 sdObjs.1 merged.1, acc.2 ++ merged.2))
        (reg, w0)).1 = regAfter d reg l by
    exact h theirs ours []
  intro l
  induction l with
  | nil => intro reg w0; rfl
  | cons hd tl ih =>
    intro reg w0
    simp only [List.foldl_cons, regAfter]
    rw [merge_objects_fst]
    exact ih _ _

theorem regAfter_get_notmem (d : List String) (theirs reg : Registry) (sd : String)
    (h : sd ∉ theirs.map Prod.fst) :
    dictGet (regAfter d reg theirs) sd = dictGet reg sd := by
  induction theirs generalizing reg with
  | nil => rfl
  | cons hd tl ih =>
    simp only [List.map_cons, List.mem_cons] at h
    push_neg at h
    have hne : hd.1 ≠ sd := fun h' => h.1 h'.symm
    simp only [regAfter, List.foldl_cons]
    rw [show (tl.foldl
      (fun reg sdo => dictSet reg sdo.1 (objsAfter d (dictGetD reg sdo.1 []) sdo.2))
      (dictSet reg hd.1 (objsAfter d (dictGetD reg hd.1 []) hd.2)))
      = regAfter d (dictSet reg hd.1 (objsAfter d (dictGetD reg hd.1 []) hd.2)) tl
      from rfl]
    rw [ih _ h.2, dictGet_dictSet_ne _ _ _ _ hne]

theorem regAfter_get_mem (d : List String) (theirs : Registry) :
    ∀ (reg : Registry) (sd : String) (objs : Objects),
    (theirs.map Prod.fst).Nodup → (sd, objs) ∈ theirs →
    dictGet (regAfter d reg theirs) sd
      = some (objsAfter d (dictGetD reg sd []) objs) := by
  induction theirs with
  | nil =>
    intro reg sd objs _ hmem
    simp at hmem
  | cons hd tl ih =>
    intro reg sd objs hnd hmem
    obtain ⟨k0, objs0⟩ := hd
    simp only [List.map_cons, List.nodup_cons] at hnd
    rcases List.mem_cons.mp hmem with heq | htl
    · have hk : sd = k0 := congrArg Prod.fst heq
      have hv : objs = objs0 := congrArg Prod.snd heq
      subst hk
      subst hv
      simp only [regAfter, List.foldl_cons]
      rw [show (tl.foldl
        (fun reg sdo => dictSet reg sdo.1 (objsAfter d (dictGetD reg sdo.1 []) sdo.2))
        (dictSet reg sd (objsAfter d (dictGetD reg sd []) objs)))
        = regAfter d (dictSet reg sd (objsAfter d (dictGetD reg sd []) objs)) tl
        from rfl]
      rw [regAfter_get_notmem d tl _ sd hnd.1, dictGet_dictSet_self]
    · have hne : k0 ≠ sd := by
        intro h1
        apply hnd.1
        rw [h1]
        exact List.mem_map_of_mem Prod.fst htl
      simp only [regAfter, List.foldl_cons]
      rw [show (tl.foldl
        (fun reg sdo => dictSet reg sdo.1 (objsAfter d (dictGetD reg sdo.1 []) sdo.2))
        (dictSet reg k0 (objsAfter d (dictGetD reg k0 []) objs0)))
        = regAfter d (dictSet reg k0 (objsAfter d (dictGetD reg k0 []) objs0)) tl
        from rfl]
      rw [ih _ sd objs hnd.2 htl]
      rw [show dictGetD (dictSet reg k0 (objsAfter d (dictGetD reg k0 []) objs0)) sd []
        = dictGetD reg sd [] from by
          unfold dictGetD
          rw [dictGet_dictSet_ne _ _ _ _ hne]]

theorem regAfter_self (d : List String) (theirs reg : Registry)
    (hsome : ∀ sdo ∈ theirs, (dictGet reg sdo.1).isSome)
    (h : ∀ sdo ∈ theirs, ∀ nv ∈ sdo.2, nv.2.docname ∈ d →
      dictGet (dictGetD reg sdo.1 []) nv.1 = some nv.2) :
    regAfter d reg theirs = reg := by
  induction theirs with
  | nil => rfl
  | cons hd tl ih =>
    have hbase : objsAfter d (dictGetD reg hd.1 []) hd.2 = dictGetD reg hd.1 [] :=
      objsAfter_self _ _ _ (h hd (List.mem_cons_self _ _))
    have hset : dictSet reg hd.1 (dictGetD reg hd.1 []) = reg := by
      have hs := hsome hd (List.mem_cons_self _ _)
      cases hget : dictGet reg hd.1 with
      | none => rw [hget] at hs; simp at hs
      | some v =>
        have : dictGetD reg hd.1 [] = v := by
          unfold dictGetD
          rw [hget]
          rfl
        rw [this]
        exact dictSet_of_get_eq _ _ _ hget
    simp only [regAfter, List.foldl_cons, hbase, hset]
    exact ih (fun sdo hsdo => hsome sdo (List.mem_cons_of_mem _ hsdo))
      (fun sdo hsdo => h sdo (List.mem_cons_of_mem _ hsdo))

theorem merge_objects_warn_mono (d : List String) (l : Objects) :
    ∀ (o : Objects) (w0 : List MergeWarning) (w : MergeWarning), w ∈ w0 →
    w ∈ (l.foldl
      (fun acc nv =>
        if nv.2.docname ∈ d then
          (dictSet acc.1 nv.1 nv.2,
           match dictGet acc.1 nv.1 with
           | some old => acc.2 ++ [(nv.2.docname, nv.1, old.docname)]
           | none => acc.2)
        else acc)
      (o, w0)).2 := by
  induction l with
  | nil =>
    intro o w0 w hw
    exact hw
  | cons hd tl ih =>
    intro o w0 w hw
    by_cases hc : hd.2.docname ∈ d
    · simp only [List.foldl_cons, if_pos hc]
      cases hget : dictGet o hd.1 with
      | some old =>
        simp only [hget]
        exact ih _ _ _ (List.mem_append_left _ hw)
      | none =>
        simp only [hget]
        exact ih _ _ _ hw
    · simp only [List.foldl_cons, if_neg hc]
      exact ih _ _ _ hw

theorem merge_objects_warn_aux (d : List String) (l : Objects) :
    ∀ (o : Objects) (w0 : List MergeWarning) (n : String) (e old : RegEntry),
    (l.map Prod.fst).Nodup → (n, e) ∈ l → e.docname ∈ d →
    dictGet o n = some old →
    (e.docname, n, old.docname) ∈ (l.foldl
      (fun acc nv =>
        if nv.2.docname ∈ d then
          (dictSet acc.1 nv.1 nv.2,
           match dictGet acc.1 nv.1 with
           | some old => acc.2 ++ [(nv.2.docname, nv.1, old.docname)]
           | none => acc.2)
        else acc)
      (o, w0)).2 := by
  induction l with
  | nil =>
    intro o w0 n e old _ hmem
    simp at hmem
  | cons hd tl ih =>
    intro o w0 n e old hnd hmem hc hget
    obtain ⟨k0, v0⟩ := hd
    simp only [List.map_cons, List.nodup_cons] at hnd
    rcases List.mem_cons.mp hmem with heq | htl
    · have hk : n = k0 := congrArg Prod.fst heq
      have hv : e = v0 := congrArg Prod.snd heq
      subst hk
      subst hv
      simp only [List.foldl_cons, if_pos hc, hget]
      exact merge_objects_warn_mono d tl _ _ _
        (List.mem_append_right _ (List.mem_singleton_self _))
    · have hne : k0 ≠ n := by
        intro h1
        apply hnd.1
        rw [h1]
        exact List.mem_map_of_mem Prod.fst htl
      by_cases hcc : v0.docname ∈ d
      · simp only [List.foldl_cons, if_pos hcc]
        refine ih _ _ _ _ _ hnd.2 htl hc ?_
        rw [dictGet_dictSet_ne _ _ _ _ hne]
        exact hget
      · simp only [List.foldl_cons, if_neg hcc]
        exact ih _ _ _ _ _ hnd.2 htl hc hget

theorem merge_objects_warn (d : List String) (l o : Objects)
    (n : String) (e old : RegEntry)
    (hnd : (l.map Prod.fst).Nodup) (hmem : (n, e) ∈ l) (hc : e.docname ∈ d)
    (hget : dictGet o n = some old) :
    (e.docname, n, old.docname) ∈ (merge_objects d o l).2 :=
  merge_objects_warn_aux d l o [] n e old hnd hmem hc hget

theorem merge_domaindata_warn_mono (d : List String) (l : Registry) :
    ∀ (reg : Registry) (w0 : List MergeWarning) (w : MergeWarning), w ∈ w0 →
    w ∈ (l.foldl
      (fun acc sdObjs =>
        let merged := merge_objects d (dictGetD acc.1 sdObjs.1 []) sdObjs.2
        (dictSet acc.1 sdObjs.1 merged.1, acc.2 ++ merged.2))
      (reg, w0)).2 := by
  induction l with
  | nil =>
    intro reg w0 w hw
    exact hw
  | cons hd tl ih =>
    intro reg w0 w hw
    simp only [List.foldl_cons]
    exact ih _ _ _ (List.mem_append_left _ hw)

theorem merge_domaindata_warn_aux (d : List String) (l : Registry) :
    ∀ (reg : Registry) (w0 : List MergeWarning) (sd : String) (objs : Objects)
      (n : String) (e old : RegEntry),
    (l.map Prod.fst).Nodup → (sd, objs) ∈ l → (objs.map Prod.fst).Nodup →
    (n, e) ∈ objs → e.docname ∈ d →
    dictGet (dictGetD reg sd []) n = some old →
    (e.docname, n, old.docname) ∈ (l.foldl
      (fun acc sdObjs =>
        let merged := merge_objects d (dictGetD acc.1 sdObjs.1 []) sdObjs.2
        (dictSet acc.1 sdObjs.1 merged.1, acc.2 ++ merged.2))
      (reg, w0)).2 := by
  induction l with
  | nil =>
    intro reg w0 sd objs n e old _ hmem
    simp at hmem
  | cons hd tl ih =>
    intro reg w0 sd objs n e old hnd hmem hndo hmemn hc hget
    obtain ⟨k0, objs0⟩ := hd
    simp only [List.map_cons, List.nodup_cons] at hnd
    rcases List.mem_cons.mp hmem with heq | htl
    · have hk : sd = k0 := congrArg Prod.fst heq
      have hv : objs = objs0 := congrArg Prod.snd heq
      subst hk
      subst hv
      simp only [List.foldl_cons]
      refine merge_domaindata_warn_mono d tl _ _ _ ?_
      refine List.mem_append_right _ ?_
      exact merge_objects_warn d objs _ n e old hndo hmemn hc hget
    · have hne : k0 ≠ sd := by
        intro h1
        apply hnd.1
        rw [h1]
        exact List.mem_map_of_mem Prod.fst htl
      simp only [List.foldl_cons]
      refine ih _ _ _ _ _ _ _ hnd.2 htl hndo hmemn hc ?_
      rw [show dictGetD (dictSet reg k0
          (merge_objects d (dictGetD reg k0 []) objs0).1) sd []
        = dictGetD reg sd [] from by
          unfold dictGetD
          rw [dictGet_dictSet_ne _ _ _ _ hne]]
      exact hget

/-- C3: `merge_domaindata` inserts exactly the batch entries whose origin is
in the restriction list (lookups of all other names are unchanged), emits a
duplicate warning citing the earlier origin for every inserted name already
present, and is idempotent on the registry state: merging the same batch
again with the same restriction leaves the registry unchanged (only the
duplicate warnings repeat). -/
theorem merge_restricted_insert_warn_idempotent
    (docnames : List String) (ours theirs : Registry)
    (HS : (theirs.map Prod.fst).Nodup)
    (HN : ∀ p ∈ theirs, (p.2.map Prod.fst).Nodup) :
    (∀ sd objs name e, (sd, objs) ∈ theirs → (name, e) ∈ objs →
      e.docname ∈ docnames →
      registryGet (merge_domaindata docnames ours theirs).1 sd name = some e) ∧
    (∀ sd name,
      (∀ objs e, (sd, objs) ∈ theirs → (name, e) ∈ objs →
        e.docname ∉ docnames) →
      registryGet (merge_domaindata docnames ours theirs).1 sd name
        = registryGet ours sd name) ∧
    (∀ sd objs name e old, (sd, objs) ∈ theirs → (name, e) ∈ objs →
      e.docname ∈ docnames → registryGet ours sd name = some old →
      (e.docname, name, old.docname)
        ∈ (merge_domaindata docnames ours theirs).2) ∧
    (merge_domaindata docnames
        (merge_domaindata docnames ours theirs).1 theirs).1
      = (merge_domaindata docnames ours theirs).1 := by
  refine ⟨fun sd objs name e hsd hname hc => ?_, fun sd name hno => ?_,
    fun sd objs name e old hsd hname hc hget => ?_, ?_⟩
  · unfold registryGet
    rw [merge_domaindata_fst]
    unfold dictGetD
    rw [regAfter_get_mem docnames theirs ours sd objs HS hsd]
    exact objsAfter_get_cond docnames objs _ name e (HN _ hsd) hname hc
  · by_cases hk : sd ∈ theirs.map Prod.fst
    · obtain ⟨x, hx, hx1⟩ := List.mem_map.mp hk
      obtain ⟨sd2, objs⟩ := x
      simp only at hx1
      subst hx1
      unfold registryGet
      rw [merge_domaindata_fst]
      unfold dictGetD
      rw [regAfter_get_mem docnames theirs ours sd2 objs HS hx]
      exact objsAfter_get_nocond docnames objs _ name
        (fun e he => hno objs e hx he)
    · unfold registryGet
      rw [merge_domaindata_fst]
      unfold dictGetD
      rw [regAfter_get_notmem docnames theirs ours sd hk]
  · exact merge_domaindata_warn_aux docnames theirs ours [] sd objs name e old
      HS hsd (HN _ hsd) hname hc hget
  · rw [merge_domaindata_fst, merge_domaindata_fst]
    refine regAfter_self docnames theirs _ ?_ ?_
    · intro sdo hsdo
      rw [regAfter_get_mem docnames theirs ours sdo.1 sdo.2 HS hsdo]
      rfl
    · intro sdo hsdo nv hnv hc
      rw [show dictGetD (regAfter docnames ours theirs) sdo.1 []
          = objsAfter docnames (dictGetD ours sdo.1 []) sdo.2 from by
        unfold dictGetD
        rw [regAfter_get_mem docnames theirs ours sdo.1 sdo.2 HS hsdo]
        rfl]
      exact objsAfter_get_cond docnames sdo.2 _ nv.1 nv.2 (HN _ hsdo) hnv hc

/-- C3 (witness): merging a batch with origin restriction `["docB"]` inserts
the `docB` entries (`simpl` overwrites and warns, citing `docA`), skips the
out-of-restriction entry, and a second identical merge leaves the registry
unchanged. -/
theorem merge_witness :
    registryGet
        (merge_domaindata ["docB"]
          [("tacn", [("simpl", ⟨"docA", "tacn", "coq:tacn.simpl"⟩)]), ("cmd", [])]
          [("tacn", [("simpl", ⟨"docB", "tacn", "coq:tacn.simpl"⟩),
                     ("stale", ⟨"docC", "tacn", "coq:tacn.stale"⟩)]),
           ("cmd", [])]).1
        "tacn" "simpl" = some ⟨"docB", "tacn", "coq:tacn.simpl"⟩ ∧
    registryGet
        (merge_domaindata ["docB"]
          [("tacn", [("simpl", ⟨"docA", "tacn", "coq:tacn.simpl"⟩)]), ("cmd", [])]
          [("tacn", [("simpl", ⟨"docB", "tacn", "coq:tacn.simpl"⟩),
                     ("stale", ⟨"docC", "tacn", "coq:tacn.stale"⟩)]),
           ("cmd", [])]).1
        "tacn" "stale"
      = registryGet
          [("tacn", [("simpl", ⟨"docA", "tacn", "coq:tacn.simpl"⟩)]), ("cmd", [])]
          "tacn" "stale" ∧
    ("docB", "simpl", "docA")
      ∈ (merge_domaindata ["docB"]
          [("tacn", [("simpl", ⟨"docA", "tacn", "coq:tacn.simpl"⟩)]), ("cmd", [])]
          [("tacn", [("simpl", ⟨"docB", "tacn", "coq:tacn.simpl"⟩),
                     ("stale", ⟨"docC", "tacn", "coq:tacn.stale"⟩)]),
           ("cmd", [])]).2 ∧
    (merge_domaindata ["docB"]
        (merge_domaindata ["docB"]
          [("tacn", [("simpl", ⟨"docA", "tacn", "coq:tacn.simpl"⟩)]), ("cmd", [])]
          [("tacn", [("simpl", ⟨"docB", "tacn", "coq:tacn.simpl"⟩),
                     ("stale", ⟨"docC", "tacn", "coq:tacn.stale"⟩)]),
           ("cmd", [])]).1
        [("tacn", [("simpl", ⟨"docB", "tacn", "coq:tacn.simpl"⟩),
                   ("stale", ⟨"docC", "tacn", "coq:tacn.stale"⟩)]),
         ("cmd", [])]).1
      = (merge_domaindata ["docB"]
          [("tacn", [("simpl", ⟨"docA", "tacn", "coq:tacn.simpl"⟩)]), ("cmd", [])]
          [("tacn", [("simpl", ⟨"docB", "tacn", "coq:tacn.simpl"⟩),
                     ("stale", ⟨"docC", "tacn", "coq:tacn.stale"⟩)]),
           ("cmd", [])]).1 := by
  have h := merge_restricted_insert_warn_idempotent ["docB"]
    [("tacn", [("simpl", ⟨"docA", "tacn", "coq:tacn.simpl"⟩)]), ("cmd", [])]
    [("tacn", [("simpl", ⟨"docB", "tacn", "coq:tacn.simpl"⟩),
               ("stale", ⟨"docC", "tacn", "coq:tacn.stale"⟩)]),
     ("cmd", [])]
    (by decide) (by decide)
  refine ⟨?_, ?_, ?_, h.2.2.2⟩
  · exact h.1 "tacn"
      [("simpl", ⟨"docB", "tacn", "coq:tacn.simpl"⟩),
       ("stale", ⟨"docC", "tacn", "coq:tacn.stale"⟩)]
      "simpl" ⟨"docB", "tacn", "coq:tacn.simpl"⟩
      (by decide) (by decide) (by decide)
  · refine h.2.1 "tacn" "stale" ?_
    intro objs e hobjs he
    rcases List.mem_cons.mp hobjs with heq | htl
    · have hv : objs = [("simpl", ⟨"docB", "tacn", "coq:tacn.simpl"⟩),
          ("stale", ⟨"docC", "tacn", "coq:tacn.stale"⟩)] :=
        congrArg Prod.snd heq
      subst hv
      rcases List.mem_cons.mp he with he1 | he2
      · have hss : ("stale" : String) = "simpl" := congrArg Prod.fst he1
        exact absurd hss (by decide)
      · have hv2 : e = ⟨"docC", "tacn", "coq:tacn.stale"⟩ :=
          congrArg Prod.snd (List.mem_singleton.mp he2)
        subst hv2
        decide
    · have hv : objs = [] := congrArg Prod.snd (List.mem_singleton.mp htl)
      subst hv
      simp at he
  · exact h.2.2.1 "tacn"
      [("simpl", ⟨"docB", "tacn", "coq:tacn.simpl"⟩),
       ("stale", ⟨"docC", "tacn", "coq:tacn.stale"⟩)]
      "simpl" ⟨"docB", "tacn", "coq:tacn.simpl"⟩ ⟨"docA", "tacn", "coq:tacn.simpl"⟩
      (by decide) (by decide) (by decide) (by decide)

theorem charListLe_total : ∀ l1 l2 : List Char,
    charListLe l1 l2 = true ∨ charListLe l2 l1 = true := by
  intro l1
  induction l1 with
  | nil =>
    intro l2
    left
    rfl
  | cons c cs ih =>
    intro l2
    cases l2 with
    | nil =>
      right
      rfl
    | cons d ds =>
      by_cases h1 : c.toNat < d.toNat
      · left
        simp [charListLe, h1]
      · by_cases h2 : d.toNat < c.toNat
        · right
          simp [charListLe, h2]
        · rcases ih ds with h | h
          · left
            simp [charListLe, h1, h2, h]
          · right
            simp [charListLe, h1, h2, h]

theorem charListLe_trans : ∀ l1 l2 l3 : List Char,
    charListLe l1 l2 = true → charListLe l2 l3 = true →
    charListLe l1 l3 = true := by
  intro l1
  induction l1 with
  | nil =>
    intro l2 l3 _ _
    rfl
  | cons c cs ih =>
    intro l2 l3 h12 h23
    cases l2 with
    | nil => simp [charListLe] at h12
    | cons d ds =>
      cases l3 with
      | nil => simp [charListLe] at h23
      | cons e es =>
        simp only [charListLe] at h12 h23 ⊢
        by_cases hcd : c.toNat < d.toNat
        · by_cases hde : d.toNat < e.toNat
          · have hce : c.toNat < e.toNat := Nat.lt_trans hcd hde
            simp [hce]
          · by_cases hed : e.toNat < d.toNat
            · rw [if_neg hde, if_pos hed] at h23
              simp at h23
            · have hce : c.toNat < e.toNat := by omega
              simp [hce]
        · by_cases hdc : d.toNat < c.toNat
          · rw [if_neg hcd, if_pos hdc] at h12
            simp at h12
          · rw [if_neg hcd, if_neg hdc] at h12
            by_cases hde : d.toNat < e.toNat
            · have hce : c.toNat < e.toNat := by omega
              simp [hce]
            · by_cases hed : e.toNat < d.toNat
              · rw [if_neg hde, if_pos hed] at h23
                simp at h23
              · rw [if_neg hde, if_neg hed] at h23
                have hce1 : ¬ c.toNat < e.toNat := by omega
                have hce2 : ¬ e.toNat < c.toNat := by omega
                rw [if_neg hce1, if_neg hce2]
                exact ih ds es h12 h23

theorem mem_sInsert {α : Type} (le : α → α → Bool) (x a : α) (l : List α) :
    a ∈ sInsert le x l ↔ a = x ∨ a ∈ l := by
  induction l with
  | nil => simp [sInsert]
  | cons y ys ih =>
    by_cases h : le y x = true
    · simp only [sInsert, if_pos h, List.mem_cons, ih]
      tauto
    · simp only [sInsert, if_neg h, List.mem_cons]

theorem pairwise_sInsert {α : Type} (le : α → α → Bool)
    (htrans : ∀ a b c, le a b = true → le b c = true → le a c = true)
    (htotal : ∀ a b, le a b = true ∨ le b a = true)
    (x : α) (l : List α) (hl : l.Pairwise (fun a b => le a b = true)) :
    (sInsert le x l).Pairwise (fun a b => le a b = true) := by
  induction l with
  | nil => simp [sInsert]
  | cons y ys ih =>
    rcases List.pairwise_cons.mp hl with ⟨hy, hys⟩
    by_cases h : le y x = true
    · simp only [sInsert, if_pos h]
      refine List.pairwise_cons.mpr ⟨?_, ih hys⟩
      intro b hb
      rcases (mem_sInsert le x b ys).mp hb with rfl | hbys
      · exact h
      · exact hy b hbys
    · have hxy : le x y = true := by
        rcases htotal x y with h1 | h1
        · exact h1
        · exact absurd h1 h
      simp only [sInsert, if_neg h]
      refine List.pairwise_cons.mpr ⟨?_, hl⟩
      intro b hb
      rcases List.mem_cons.mp hb with rfl | hbys
      · exact hxy
      · exact htrans x y b hxy (hy b hbys)

theorem sorted_stableSort {α : Type} (le : α → α → Bool)
    (htrans : ∀ a b c, le a b = true → le b c = true → le a c = true)
    (htotal : ∀ a b, le a b = true ∨ le b a = true) (xs : List α) :
    (stableSort le xs).Pairwise (fun a b => le a b = true) := by
  suffices h : ∀ (l : List α) (acc : List α),
      acc.Pairwise (fun a b => le a b = true) →
      (l.foldl (fun acc x => sInsert le x acc) acc).Pairwise
        (fun a b => le a b = true) by
    exact h xs [] (by simp)
  intro l
  induction l with
  | nil =>
    intro acc hacc
    exact hacc
  | cons x tl ih =>
    intro acc hacc
    exact ih _ (pairwise_sInsert le htrans htotal x acc hacc)

theorem mem_stableSort {α : Type} (le : α → α → Bool) (a : α) (xs : List α) :
    a ∈ stableSort le xs ↔ a ∈ xs := by
  suffices h : ∀ (l : List α) (acc : List α),
      (a ∈ l.foldl (fun acc x => sInsert le x acc) acc ↔ a ∈ acc ∨ a ∈ l) by
    have := h xs []
    simpa using this
  intro l
  induction l with
  | nil =>
    intro acc
    simp
  | cons x tl ih =>
    intro acc
    rw [List.foldl_cons, ih (sInsert le x acc), mem_sInsert]
    simp only [List.mem_cons]
    tauto


theorem addToBucket_entry_prop (Q : IndexEntry → Prop) :
    ∀ (acc : List (String × List IndexEntry)) (key : String) (e : IndexEntry),
    (∀ b ∈ acc, ∀ a ∈ b.2, Q a) → Q e →
    ∀ b ∈ addToBucket acc key e, ∀ a ∈ b.2, Q a := by
  intro acc
  induction acc with
  | nil =>
    intro key e _ hQ b hb a ha
    simp only [addToBucket, List.mem_singleton] at hb
    subst hb
    simp only [List.mem_singleton] at ha
    subst ha
    exact hQ
  | cons hd rest ih =>
    intro key e hacc hQ b hb a ha
    obtain ⟨k, es⟩ := hd
    by_cases hk : k = key
    · simp only [addToBucket, if_pos hk, List.mem_cons] at hb
      rcases hb with rfl | hbr
      · rcases List.mem_append.mp ha with h1 | h2
        · exact hacc (k, es) (List.mem_cons_self _ _) a h1
        · simp only [List.mem_singleton] at h2
          subst h2
          exact hQ
      · exact hacc b (List.mem_cons_of_mem _ hbr) a ha
    · simp only [addToBucket, if_neg hk, List.mem_cons] at hb
      rcases hb with rfl | hbr
      · exact hacc (k, es) (List.mem_cons_self _ _) a ha
      · exact ih key e (fun b' hb' => hacc b' (List.mem_cons_of_mem _ hb')) hQ
          b hbr a ha

theorem addToBucket_letter :
    ∀ (acc : List (String × List IndexEntry)) (key : String) (e : IndexEntry),
    (∀ b ∈ acc, ∀ a ∈ b.2, b.1 = letterOf a.dispname) →
    key = letterOf e.dispname →
    ∀ b ∈ addToBucket acc key e, ∀ a ∈ b.2, b.1 = letterOf a.dispname := by
  intro acc
  induction acc with
  | nil =>
    intro key e _ hkey b hb a ha
    simp only [addToBucket, List.mem_singleton] at hb
    subst hb
    simp only [List.mem_singleton] at ha
    subst ha
    exact hkey
  | cons hd rest ih =>
    intro key e hacc hkey b hb a ha
    obtain ⟨k, es⟩ := hd
    by_cases hk : k = key
    · simp only [addToBucket, if_pos hk, List.mem_cons] at hb
      rcases hb with rfl | hbr
      · rcases List.mem_append.mp ha with h1 | h2
        · exact hacc (k, es) (List.mem_cons_self _ _) a h1
        · simp only [List.mem_singleton] at h2
          subst h2
          rw [hk, hkey]
      · exact hacc b (List.mem_cons_of_mem _ hbr) a ha
    · simp only [addToBucket, if_neg hk, List.mem_cons] at hb
      rcases hb with rfl | hbr
      · exact hacc (k, es) (List.mem_cons_self _ _) a ha
      · exact ih key e (fun b' hb' => hacc b' (List.mem_cons_of_mem _ hb')) hkey
          b hbr a ha

theorem addToBucket_pairwise (R : IndexEntry → IndexEntry → Prop) :
    ∀ (acc : List (String × List IndexEntry)) (key : String) (e : IndexEntry),
    (∀ b ∈ acc, b.2.Pairwise R) → (∀ b ∈ acc, ∀ a ∈ b.2, R a e) →
    ∀ b ∈ addToBucket acc key e, b.2.Pairwise R := by
  intro acc
  induction acc with
  | nil =>
    intro key e _ _ b hb
    simp only [addToBucket, List.mem_singleton] at hb
    subst hb
    simp
  | cons hd rest ih =>
    intro key e hacc hcross b hb
    obtain ⟨k, es⟩ := hd
    by_cases hk : k = key
    · simp only [addToBucket, if_pos hk, List.mem_cons] at hb
      rcases hb with rfl | hbr
      · refine List.pairwise_append.mpr
          ⟨hacc (k, es) (List.mem_cons_self _ _), by simp, ?_⟩
        intro a ha b' hb'
        simp only [List.mem_singleton] at hb'
        subst hb'
        exact hcross (k, es) (List.mem_cons_self _ _) a ha
      · exact hacc b (List.mem_cons_of_mem _ hbr)
    · simp only [addToBucket, if_neg hk, List.mem_cons] at hb
      rcases hb with rfl | hbr
      · exact hacc (k, es) (List.mem_cons_self _ _)
      · exact ih key e (fun b' hb' => hacc b' (List.mem_cons_of_mem _ hb'))
          (fun b' hb' => hcross b' (List.mem_cons_of_mem _ hb')) b hbr

theorem itemLe_trans : ∀ a b c : String × RegEntry,
    itemLe a b = true → itemLe b c = true → itemLe a c = true :=
  fun a b c h1 h2 => charListLe_trans _ _ _ h1 h2

theorem itemLe_total : ∀ a b : String × RegEntry,
    itemLe a b = true ∨ itemLe b a = true :=
  fun a b => charListLe_total _ _

theorem bucketLe_trans : ∀ a b c : String × List IndexEntry,
    bucketLe a b = true → bucketLe b c = true → bucketLe a c = true :=
  fun a b c h1 h2 => charListLe_trans _ _ _ h1 h2

theorem bucketLe_total : ∀ a b : String × List IndexEntry,
    bucketLe a b = true ∨ bucketLe b a = true :=
  fun a b => charListLe_total _ _

theorem generateFold_entry_prop (docnames : Option (List String))
    (Q : IndexEntry → Prop) :
    ∀ (xs : List (String × RegEntry)) (acc : List (String × List IndexEntry)),
    (∀ b ∈ acc, ∀ a ∈ b.2, Q a) →
    (∀ x ∈ xs, skipEntry docnames x.2.docname = false → Q (mkIndexEntry x)) →
    ∀ b ∈ xs.foldl
      (fun acc it =>
        if skipEntry docnames it.2.docname then acc
        else addToBucket acc (letterOf it.1) (mkIndexEntry it)) acc,
      ∀ a ∈ b.2, Q a := by
  intro xs
  induction xs with
  | nil =>
    intro acc hacc _ b hb
    exact hacc b hb
  | cons x tl ih =>
    intro acc hacc hxs
    simp only [List.foldl_cons]
    by_cases hskip : skipEntry docnames x.2.docname = true
    · rw [if_pos hskip]
      exact ih acc hacc (fun y hy => hxs y (List.mem_cons_of_mem _ hy))
    · have hf : skipEntry docnames x.2.docname = false := by
        revert hskip
        cases skipEntry docnames x.2.docname <;> simp
      rw [if_neg hskip]
      exact ih _
        (addToBucket_entry_prop Q acc _ _ hacc (hxs x (List.mem_cons_self _ _) hf))
        (fun y hy => hxs y (List.mem_cons_of_mem _ hy))

theorem generateFold_letter (docnames : Option (List String)) :
    ∀ (xs : List (String × RegEntry)) (acc : List (String × List IndexEntry)),
    (∀ b ∈ acc, ∀ a ∈ b.2, b.1 = letterOf a.dispname) →
    ∀ b ∈ xs.foldl
      (fun acc it =>
        if skipEntry docnames it.2.docname then acc
        else addToBucket acc (letterOf it.1) (mkIndexEntry it)) acc,
      ∀ a ∈ b.2, b.1 = letterOf a.dispname := by
  intro xs
  induction xs with
  | nil =>
    intro acc hacc b hb
    exact hacc b hb
  | cons x tl ih =>
    intro acc hacc
    simp only [List.foldl_cons]
    by_cases hskip : skipEntry docnames x.2.docname = true
    · rw [if_pos hskip]
      exact ih acc hacc
    · rw [if_neg hskip]
      exact ih _ (addToBucket_letter acc _ _ hacc rfl)

theorem generateFold_pairwise (docnames : Option (List String)) :
    ∀ (xs : List (String × RegEntry)) (acc : List (String × List IndexEntry)),
    xs.Pairwise (fun x y => itemLe x y = true) →
    (∀ b ∈ acc, b.2.Pairwise
      (fun a c => strLe (pyLower a.dispname) (pyLower c.dispname) = true)) →
    (∀ b ∈ acc, ∀ a ∈ b.2, ∀ x ∈ xs,
      strLe (pyLower a.dispname) (pyLower (mkIndexEntry x).dispname) = true) →
    ∀ b ∈ xs.foldl
      (fun acc it =>
        if skipEntry docnames it.2.docname then acc
        else addToBucket acc (letterOf it.1) (mkIndexEntry it)) acc,
      b.2.Pairwise
        (fun a c => strLe (pyLower a.dispname) (pyLower c.dispname) = true) := by
  intro xs
  induction xs with
  | nil =>
    intro acc _ hacc _ b hb
    exact hacc b hb
  | cons x tl ih =>
    intro acc hsort hacc hcross
    rcases List.pairwise_cons.mp hsort with ⟨hx, htl⟩
    simp only [List.foldl_cons]
    by_cases hskip : skipEntry docnames x.2.docname = true
    · rw [if_pos hskip]
      exact ih acc htl hacc
        (fun b hb a ha y hy => hcross b hb a ha y (List.mem_cons_of_mem _ hy))
    · rw [if_neg hskip]
      refine ih _ htl ?_ ?_
      · exact addToBucket_pairwise _ acc _ _ hacc
          (fun b hb a ha => hcross b hb a ha x (List.mem_cons_self _ _))
      · intro b hb a ha y hy
        refine addToBucket_entry_prop
          (fun a => ∀ y ∈ tl,
            strLe (pyLower a.dispname) (pyLower (mkIndexEntry y).dispname) = true)
          acc _ _ ?_ ?_ b hb a ha y hy
        · exact fun b' hb' a' ha' y' hy' =>
            hcross b' hb' a' ha' y' (List.mem_cons_of_mem _ hy')
        · exact fun y' hy' => hx y' hy'

/-- C7: the subdomain index builder gathers the listed subdomains, never
collapses (collapse is `False`), keys every bucket by the lowercased first
character of the entries' display names, keeps each bucket sorted
case-insensitively by name, lists the buckets in sorted order, and keeps
only entries passing the (truthy) origin restriction — in particular, with a
non-empty restriction every listed entry's origin is in it. -/
theorem index_generate_sorted_bucketed
    (idx : CoqIndex) (reg : Registry) (docnames : Option (List String)) :
    (generate idx reg docnames).2 = false ∧
    (∀ b ∈ (generate idx reg docnames).1, ∀ a ∈ b.2,
      b.1 = letterOf a.dispname) ∧
    (∀ b ∈ (generate idx reg docnames).1,
      b.2.Pairwise
        (fun a c => strLe (pyLower a.dispname) (pyLower c.dispname) = true)) ∧
    (generate idx reg docnames).1.Pairwise (fun a c => strLe a.1 c.1 = true) ∧
    (∀ b ∈ (generate idx reg docnames).1, ∀ a ∈ b.2,
      skipEntry docnames a.docname = false) ∧
    (∀ l, docnames = some l → l ≠ [] →
      ∀ b ∈ (generate idx reg docnames).1, ∀ a ∈ b.2, a.docname ∈ l) := by
  have hskipf : ∀ b ∈ (generate idx reg docnames).1, ∀ a ∈ b.2,
      skipEntry docnames a.docname = false := by
    intro b hb a ha
    have hb2 := (mem_stableSort bucketLe b _).mp hb
    exact generateFold_entry_prop docnames
      (fun a => skipEntry docnames a.docname = false) _ [] (by simp)
      (fun x hx hf => hf) b hb2 a ha
  refine ⟨rfl, ?_, ?_, ?_, hskipf, ?_⟩
  · intro b hb a ha
    have hb2 := (mem_stableSort bucketLe b _).mp hb
    exact generateFold_letter docnames _ [] (by simp) b hb2 a ha
  · intro b hb
    have hb2 := (mem_stableSort bucketLe b _).mp hb
    exact generateFold_pairwise docnames _ []
      (sorted_stableSort itemLe itemLe_trans itemLe_total _)
      (by simp) (by simp) b hb2
  · exact sorted_stableSort bucketLe bucketLe_trans bucketLe_total _
  · intro l hl hne b hb a ha
    have hf := hskipf b hb a ha
    subst hl
    have hie : l.isEmpty = false := by
      cases l with
      | nil => exact absurd rfl hne
      | cons c cs => rfl
    simp only [skipEntry, hie, Bool.not_false, Bool.true_and,
      Bool.not_eq_false'] at hf
    exact List.elem_iff.mp hf

/-- C7 (witness): in a command index restricted to `doc1`, the entry for
`abort` (origin `doc1`) is listed in bucket `a` and its origin is in the
restriction; the out-of-restriction entry from `doc2` is gone. -/
theorem index_generate_witness :
    (⟨"abort", 0, "doc1", "coq:cmd.abort", "", "", ""⟩ : IndexEntry).docname
      ∈ ["doc1"] := by
  have h := index_generate_sorted_bucketed CoqVernacIndex
    [("cmd", [("Print", ⟨"doc1", "cmd", "coq:cmd.print"⟩),
              ("About", ⟨"doc2", "cmd", "coq:cmd.about"⟩),
              ("abort", ⟨"doc1", "cmd", "coq:cmd.abort"⟩)])]
    (some ["doc1"])
  exact h.2.2.2.2.2 ["doc1"] rfl (by decide)
    ("a", [⟨"abort", 0, "doc1", "coq:cmd.abort", "", "", ""⟩]) (by decide)
    ⟨"abort", 0, "doc1", "coq:cmd.abort", "", "", ""⟩ (by decide)

/-- C8 (counterexample): the subdomain index builder displays the registered
name verbatim.  For the registered command name `foo.` (type `cmd`, index
suffix `(cmd)`), the claim predicts the display label `foo (cmd)` (trailing
period removed, suffix appended), but `generate` lists the label `foo.`. -/
theorem subdomain_index_label_verbatim_counterexample :
    (generate CoqVernacIndex
      [("cmd", [("foo.", ⟨"doc1", "cmd", "coq:cmd.foo"⟩)])] none).1
      = [("f", [⟨"foo.", 0, "doc1", "coq:cmd.foo", "", "", ""⟩])] ∧
    add_index_entry (some "(cmd)") "foo." "coq:cmd.foo"
      = [("single", "foo (cmd)", "coq:cmd.foo")] ∧
    ("foo." : String) ≠ "foo (cmd)" := by
  refine ⟨by decide, by decide, by decide⟩

/-- C8 (amended): entries produced by the subdomain index builder carry the
registered name verbatim as display label (with the registered origin and
anchor); the trim-one-trailing-period-unless-ellipsis plus index-suffix
labelling is applied by `_add_index_entry`, which feeds the document's
general index, not the subdomain indices. -/
theorem index_entry_labels
    (idx : CoqIndex) (reg : Registry) (docnames : Option (List String))
    (suffix name target : String) :
    (∀ b ∈ (generate idx reg docnames).1, ∀ a ∈ b.2,
      ∃ sd ∈ idx.subdomains, ∃ e : RegEntry,
        (a.dispname, e) ∈ dictGetD reg sd [] ∧
        a.docname = e.docname ∧ a.anchor = e.targetid) ∧
    (pyStartsWith name "_" = false → suffix ≠ "" →
      add_index_entry (some suffix) name target
        = [("single",
            (if pyEndsWith name "." && !pyEndsWith name "..." then
              name.dropRight 1 else name) ++ " " ++ suffix, target)]) ∧
    (pyStartsWith name "_" = false →
      add_index_entry none name target
        = [("single",
            (if pyEndsWith name "." && !pyEndsWith name "..." then
              name.dropRight 1 else name), target)]) := by
  refine ⟨?_, fun hns hsuf => ?_, fun hns => ?_⟩
  · intro b hb a ha
    have hb2 := (mem_stableSort bucketLe b _).mp hb
    refine generateFold_entry_prop docnames
      (fun a => ∃ sd ∈ idx.subdomains, ∃ e : RegEntry,
        (a.dispname, e) ∈ dictGetD reg sd [] ∧
        a.docname = e.docname ∧ a.anchor = e.targetid)
      _ [] (by simp) ?_ b hb2 a ha
    intro x hx _
    have hxitems : x ∈ (idx.subdomains.map (fun sd => dictGetD reg sd [])).flatten :=
      (mem_stableSort itemLe x _).mp hx
    obtain ⟨l, hl, hxl⟩ := List.mem_flatten.mp hxitems
    obtain ⟨sd, hsd, rfl⟩ := List.mem_map.mp hl
    refine ⟨sd, hsd, x.2, ?_, rfl, rfl⟩
    have : (x.1, x.2) = x := Prod.mk.eta
    rw [show ((mkIndexEntry x).dispname, x.2) = x from this]
    exact hxl
  · unfold add_index_entry
    rw [if_neg (by simp [hns])]
    simp only [if_neg hsuf]
  · unfold add_index_entry
    rw [if_neg (by simp [hns])]

/-- C8 (witness): the general-index label for the registered name `Foo.`
with suffix `(cmd)` is `Foo (cmd)`, and a concrete subdomain-index entry
traces back to its registry item verbatim. -/
theorem index_entry_labels_witness :
    add_index_entry (some "(cmd)") "Foo." "coq:cmd.foo"
      = [("single", "Foo (cmd)", "coq:cmd.foo")] := by
  have h := (index_entry_labels CoqVernacIndex [] none "(cmd)" "Foo."
    "coq:cmd.foo").2.1 (by decide) (by decide)
  rw [h]
  decide
